import Mathlib

/-!
Shallow embedding of the FQGAN triple-codebook tokenizer core
(`src/tokenizer/vq_model_triple.py`), over exact real arithmetic.

Modelling conventions:
* A tensor slice along the channel dimension (one position's feature vector,
  one codebook row) is `Vec d := Fin d → ℝ`.
* The `(B, C, H, W)` input of `VectorQuantizer.forward` is represented in its
  flattened `(B*H*W, C)` form (`List (Vec d)`), i.e. after the
  `einsum 'b c h w -> b h w c'` / `.view(-1, e_dim)` steps of lines 487-488,
  which are index bijections.  Per-position statements about the 4D map are
  statements about the corresponding flattened position.
* `F.normalize(v, p=2, dim=-1)` is `v / max ‖v‖₂ eps` with `eps = 1e-12`
  (PyTorch's default epsilon), modelled exactly over ℝ.
* Fallible tensor operations (advanced indexing with out-of-range indices,
  slice assignments with mismatched sizes) return `Option`, `none` standing
  for the raised runtime error.
* PyTorch advanced indexing `table[i]` accepts `-n ≤ i < n`, a negative `i`
  selecting row `n + i` (Python wraparound); only indices outside `[-n, n)`
  raise an index-out-of-range error.
-/

namespace FQGAN

/-- A feature/codebook vector of width `d` (one channel slice). -/
abbrev Vec (d : ℕ) := Fin d → ℝ

/-- `torch.sum(v ** 2, dim=-1)` for one vector: the sum of squared entries. -/
noncomputable def sumsq {d : ℕ} (v : Vec d) : ℝ := ∑ i, v i ^ 2

/-- Dot product of two channel vectors (`torch.sum(a * b, dim=-1)` /
one entry of the `einsum('bd,dn->bn', ...)` product). -/
noncomputable def dot {d : ℕ} (a b : Vec d) : ℝ := ∑ i, a i * b i

/-- The L2 norm of a vector. -/
noncomputable def l2norm {d : ℕ} (v : Vec d) : ℝ := Real.sqrt (sumsq v)

/-- PyTorch's normalization epsilon, the `eps=1e-12` default of `F.normalize`. -/
noncomputable def normEps : ℝ := 1 / 10 ^ 12

/-- `F.normalize(v, p=2, dim=-1)`: divide by `max(‖v‖₂, eps)`. -/
noncomputable def normalize {d : ℕ} (v : Vec d) : Vec d :=
  fun i => v i / max (l2norm v) normEps

/-- One row of the distance matrix of lines 498-500:
`sum(z**2) + sum(e**2) - 2 * (z · e)`. -/
noncomputable def distRow {d : ℕ} (z e : Vec d) : ℝ :=
  sumsq z + sumsq e - 2 * dot z e

/-- Minimum of `x` and the entries of a list (helper for `argminList`). -/
noncomputable def minD : ℝ → List ℝ → ℝ
  | x, [] => x
  | x, y :: l => min x (minD y l)

/-- `torch.argmin` over the last dimension: the index of the first minimal
entry of the list (ties broken towards the lowest index). -/
noncomputable def argminList : List ℝ → ℕ
  | [] => 0
  | x :: xs =>
    match xs with
    | [] => 0
    | y :: l => if x ≤ minD y l then 0 else argminList (y :: l) + 1

theorem sub_sumsq_eq_distRow {d : ℕ} (z e : Vec d) : sumsq (z - e) = distRow z e := by
  unfold sumsq distRow dot
  have h : ∀ i : Fin d, (z - e) i ^ 2 = z i ^ 2 + e i ^ 2 - 2 * (z i * e i) := by
    intro i
    simp only [Pi.sub_apply]
    ring
  rw [Finset.sum_congr rfl (fun i _ => h i)]
  rw [Finset.sum_sub_distrib, Finset.sum_add_distrib, ← Finset.mul_sum]
  rfl

theorem minD_le_head (x : ℝ) (l : List ℝ) : minD x l ≤ x := by
  cases l with
  | nil => simp [minD]
  | cons y t => simp [minD]

theorem minD_le_mem (x : ℝ) (l : List ℝ) : ∀ y ∈ l, minD x l ≤ y := by
  induction l generalizing x with
  | nil => simp
  | cons z t ih =>
    intro y hy
    rcases List.mem_cons.mp hy with h | h
    · subst h
      exact le_trans (min_le_right _ _) (minD_le_head _ _)
    · exact le_trans (min_le_right _ _) (ih z y h)

theorem argminList_lt_length (l : List ℝ) (h : l ≠ []) : argminList l < l.length := by
  induction l with
  | nil => exact absurd rfl h
  | cons x xs ih =>
    cases xs with
    | nil => simp [argminList]
    | cons y t =>
      by_cases hx : x ≤ minD y t
      · simp [argminList, hx]
      · have h1 := ih (by simp)
        simp only [List.length_cons] at h1
        simp only [argminList, hx, if_false, List.length_cons]
        omega

theorem argminList_getD_eq_minD (x : ℝ) (l : List ℝ) :
    (x :: l).getD (argminList (x :: l)) 0 = minD x l := by
  induction l generalizing x with
  | nil => simp [argminList, minD]
  | cons y t ih =>
    by_cases hx : x ≤ minD y t
    · simp [argminList, hx, minD, min_eq_left hx]
    · push_neg at hx
      simp only [argminList, not_le.mpr hx, if_false, minD, min_eq_right (le_of_lt hx)]
      simpa using ih y

theorem argminList_min (l : List ℝ) : ∀ j < l.length,
    l.getD (argminList l) 0 ≤ l.getD j 0 := by
  cases l with
  | nil => simp
  | cons x t =>
    intro j hj
    rw [argminList_getD_eq_minD]
    match j with
    | 0 => simpa [List.getD] using minD_le_head x t
    | j + 1 =>
      have hjt : j < t.length := by simpa using hj
      have hmem : t.getD j 0 ∈ t := by
        rw [List.getD_eq_getElem t 0 hjt]
        exact List.getElem_mem hjt
      simpa [List.getD] using minD_le_mem x t _ hmem

theorem argminList_first (l : List ℝ) : ∀ j < argminList l,
    l.getD (argminList l) 0 < l.getD j 0 := by
  induction l with
  | nil => simp [argminList]
  | cons x t ih =>
    cases t with
    | nil => simp [argminList]
    | cons y u =>
      by_cases hx : x ≤ minD y u
      · simp [argminList, hx]
      · push_neg at hx
        intro j hj
        have harg : argminList (x :: y :: u) = argminList (y :: u) + 1 := by
          simp [argminList, not_le.mpr hx]
        rw [harg] at hj ⊢
        match j with
        | 0 =>
          rw [List.getD_cons_succ, List.getD_cons_zero, argminList_getD_eq_minD]
          exact hx
        | j + 1 =>
          rw [List.getD_cons_succ, List.getD_cons_succ]
          exact ih j (by omega)

/-- State and hyperparameters of one `VectorQuantizer` (lines 469-483).
`embedding` is the stored `nn.Embedding` weight, a list of `n_e` rows of
width `d` (the `e_dim` of the source is the type index `d`).  The
`codebook_used` buffer is kept outside this structure and threaded through
`forward` explicitly, since `forward` mutates it. -/
structure VectorQuantizer (d : ℕ) where
  n_e : ℕ
  beta : ℝ
  entropyLossRatio : ℝ
  l2_norm : Bool
  show_usage : Bool
  embedding : List (Vec d)

/-- `__init__` lines 478-481, as a function of the freshly drawn uniform
weights: when `l2_norm` is set, the stored weights are row-normalized once. -/
noncomputable def initEmbedding {d : ℕ} (l2 : Bool) (raw : List (Vec d)) : List (Vec d) :=
  if l2 then raw.map normalize else raw

/-- The codebook as read by `forward` (lines 491-496) and by
`get_codebook_entry` (lines 533-536): the raw table, row-normalized at read
time when `l2_norm` is set.  The stored `embedding` is not mutated. -/
noncomputable def embRead {d : ℕ} (Q : VectorQuantizer d) : List (Vec d) :=
  if Q.l2_norm then Q.embedding.map normalize else Q.embedding

/-- The (flattened) input as used by lines 492-493: each position vector is
unit-normalized when `l2_norm` is set, else left as is. -/
noncomputable def zPre {d : ℕ} (Q : VectorQuantizer d) (zs : List (Vec d)) : List (Vec d) :=
  if Q.l2_norm then zs.map normalize else zs

/-- The distance matrix `d` of lines 498-500: row `p` holds the distance of
input position `p` to every codebook row, via `|z|^2 + |e|^2 - 2 z.e`. -/
noncomputable def dMat {d : ℕ} (Q : VectorQuantizer d) (zs : List (Vec d)) : List (List ℝ) :=
  (zPre Q zs).map fun z => (embRead Q).map fun e => distRow z e

/-- `min_encoding_indices = torch.argmin(d, dim=1)` (line 502). -/
noncomputable def minEncodingIndices {d : ℕ} (Q : VectorQuantizer d) (zs : List (Vec d)) :
    List ℕ :=
  (dMat Q zs).map argminList

/-- `z_q = embedding[min_encoding_indices].view(z.shape)` (line 503): the
gathered codebook rows, one per position.  The indices produced by `argmin`
are always in range, so the PyTorch gather cannot fail here; the in-range
row is `getD`'s value. -/
noncomputable def zQGathered {d : ℕ} (Q : VectorQuantizer d) (zs : List (Vec d)) :
    List (Vec d) :=
  (minEncodingIndices Q zs).map fun i => (embRead Q).getD i 0

/-- The straight-through rewrite `z_q = z + (z_q - z).detach()` (line 524),
at the level of values (`detach` is the identity on values). -/
noncomputable def zQStraightThrough {d : ℕ} (Q : VectorQuantizer d) (zs : List (Vec d)) :
    List (Vec d) :=
  List.zipWith (fun zv qv => zv + (qv - zv)) (zPre Q zs) (zQGathered Q zs)

/-- `torch.mean((xs - ys) ** 2)` for two equal-shape stacks of vectors:
the sum of all squared entry differences over the element count. -/
noncomputable def meanSqDiff {d : ℕ} (xs ys : List (Vec d)) : ℝ :=
  (List.zipWith (fun a b => ∑ c, (a c - b c) ^ 2) xs ys).sum / (xs.length * d)

/-- `vq_loss = torch.mean((z_q - z.detach()) ** 2)` (line 519), computed on
the gathered rows before the straight-through rewrite. -/
noncomputable def vqLoss {d : ℕ} (Q : VectorQuantizer d) (zs : List (Vec d)) : ℝ :=
  meanSqDiff (zQGathered Q zs) (zPre Q zs)

/-- `commit_loss = beta * torch.mean((z_q.detach() - z) ** 2)` (line 520). -/
noncomputable def commitLoss {d : ℕ} (Q : VectorQuantizer d) (zs : List (Vec d)) : ℝ :=
  Q.beta * meanSqDiff (zQGathered Q zs) (zPre Q zs)

/-- Mean of a list of reals (`torch.mean`); `0` on the empty list by the
convention `0 / 0 = 0`. -/
noncomputable def meanL (l : List ℝ) : ℝ := l.sum / l.length

/-- `F.softmax(row, dim=-1)` for one row. -/
noncomputable def softmaxRow (l : List ℝ) : List ℝ :=
  l.map fun x => Real.exp x / (l.map Real.exp).sum

/-- `F.log_softmax(row, dim=-1)` for one row. -/
noncomputable def logSoftmaxRow (l : List ℝ) : List ℝ :=
  l.map fun x => x - Real.log ((l.map Real.exp).sum)

/-- `compute_entropy_loss(affinity)` (lines 668-681) in its only exercised
configuration, `loss_type="softmax"`, `temperature=0.01`. -/
noncomputable def computeEntropyLoss (affinity : List (List ℝ)) : ℝ :=
  let flat := affinity.map (List.map fun x => x / (1 / 100))
  let probs := flat.map softmaxRow
  let logProbs := flat.map fun r => logSoftmaxRow (r.map fun x => x + 1 / 100000)
  let n := (affinity.headD []).length
  let avgProbs := (List.range n).map fun j => meanL (probs.map fun r => r.getD j 0)
  let avgEntropy := -(avgProbs.map fun p => p * Real.log (p + 1 / 100000)).sum
  let sampleEntropy :=
    -meanL (List.zipWith (fun p lp => (List.zipWith (fun a b => a * b) p lp).sum) probs logProbs)
  sampleEntropy - avgEntropy

/-- `entropy_loss = entropy_loss_ratio * compute_entropy_loss(-d)` (line 521). -/
noncomputable def entropyLossV {d : ℕ} (Q : VectorQuantizer d) (zs : List (Vec d)) : ℝ :=
  Q.entropyLossRatio * computeEntropyLoss ((dMat Q zs).map (List.map Neg.neg))

/-- The usage-buffer update of lines 512-514:
`codebook_used[:-cur_len] = codebook_used[cur_len:].clone()` followed by
`codebook_used[-cur_len:] = min_encoding_indices` (the buffer stores the
indices as floats).  With `0 < cur_len ≤ len(buffer)` both slice assignments
have matching sizes and the net effect is `drop cur_len ++ indices`.  With
`cur_len > len(buffer)` the second assignment writes `cur_len` values into a
`len(buffer)`-sized slice and raises a size-mismatch error; with
`cur_len = 0` (and a nonempty buffer) the first assigns the whole buffer into
the empty slice `[:-0] = [:0]` and raises likewise.  Errors are `none`. -/
def bufferUpdate (used : List ℝ) (idx : List ℕ) : Option (List ℝ) :=
  if (idx.length = 0 ∧ used.length ≠ 0) ∨ used.length < idx.length then none
  else some (used.drop idx.length ++ idx.map (Nat.cast : ℕ → ℝ))

/-- `codebook_usage = len(torch.unique(codebook_used)) / n_e` (line 515). -/
noncomputable def codebookUsageOf (n_e : ℕ) (used : List ℝ) : ℝ :=
  (used.dedup.length : ℝ) / (n_e : ℝ)

/-- The values returned by `VectorQuantizer.forward` (line 529), together
with the `codebook_used` buffer as left after the call. -/
structure ForwardResult (d : ℕ) where
  z_q : List (Vec d)
  vq_loss : Option ℝ
  commit_loss : Option ℝ
  entropy_loss : Option ℝ
  codebook_usage : ℝ
  perplexity : Option ℝ
  min_encodings : Option ℝ
  min_encoding_indices : List ℕ
  codebook_used : List ℝ

/-- `VectorQuantizer.forward` (lines 485-529) on the flattened input.
`training` is the `nn.Module` training flag; `used` is the `codebook_used`
buffer going in.  The losses are `some` exactly in training mode (lines
504-508 initialize them to `None`, lines 518-521 fill them when training);
`perplexity`/`min_encodings` are always `None`; `codebook_usage` is `0`
unless the usage-tracking block (lines 511-515) runs.  A failing buffer
update aborts the call (`none`). -/
noncomputable def forward {d : ℕ} (Q : VectorQuantizer d) (training : Bool)
    (used : List ℝ) (zs : List (Vec d)) : Option (ForwardResult d) :=
  if Q.show_usage && training then
    match bufferUpdate used (minEncodingIndices Q zs) with
    | none => none
    | some used' =>
      some ⟨zQStraightThrough Q zs,
            if training then some (vqLoss Q zs) else none,
            if training then some (commitLoss Q zs) else none,
            if training then some (entropyLossV Q zs) else none,
            codebookUsageOf Q.n_e used',
            none, none,
            minEncodingIndices Q zs,
            used'⟩
  else
    some ⟨zQStraightThrough Q zs,
          if training then some (vqLoss Q zs) else none,
          if training then some (commitLoss Q zs) else none,
          if training then some (entropyLossV Q zs) else none,
          0,
          none, none,
          minEncodingIndices Q zs,
          used⟩

/-- PyTorch advanced indexing `table[i]` for an integer index: rows are
addressed by `i ∈ [0, n)` directly and by `i ∈ [-n, 0)` as `n + i`
(Python wraparound); anything else raises an index-out-of-range error. -/
def torchIndex {α : Type} (tbl : List α) (i : ℤ) : Option α :=
  if 0 ≤ i ∧ i < tbl.length then tbl.get? i.toNat
  else if -(tbl.length : ℤ) ≤ i ∧ i < 0 then tbl.get? (tbl.length + i).toNat
  else none

/-- Gather a whole index list, failing if any single lookup fails (a PyTorch
advanced-indexing gather either returns every requested row or raises). -/
def optionMapList {α β : Type} (f : α → Option β) : List α → Option (List β)
  | [] => some []
  | a :: l =>
    match f a, optionMapList f l with
    | some b, some bs => some (b :: bs)
    | _, _ => none

/-- `VectorQuantizer.get_codebook_entry` (lines 531-546) on a flattened index
list: read the codebook (normalized under `l2_norm`), gather `embedding[indices]`.
The subsequent `reshape`/`permute` into the requested `(B,C,H,W)` or
`(B,H,W,C)` layout is the inverse of the flattening bijection and is not
re-modelled: the result is kept in flattened `(b*h*w, c)` form. -/
noncomputable def get_codebook_entry {d : ℕ} (Q : VectorQuantizer d) (indices : List ℤ) :
    Option (List (Vec d)) :=
  optionMapList (torchIndex (embRead Q)) indices

/-- `VQModel.compute_disentangle_loss` (lines 218-228) on two already
flattened quantized maps (`rearrange 'b c h w -> (b h w) c'`): unit-normalize
both streams per position, take per-position dot products, and return
`mean(dot ** 2) * disentanglement_ratio`. -/
noncomputable def computeDisentangleLoss {d : ℕ} (dratio : ℝ)
    (quantVis quantSem : List (Vec d)) : ℝ :=
  meanL (List.zipWith (fun a b => dot a b ^ 2)
    (quantVis.map normalize) (quantSem.map normalize)) * dratio

/-- The stage-count dispatch of `Encoder.__init__` (lines 326-331): `5`
resolution stages give downsampling factor `16`, `4` stages give `8`, and any
other count raises `NotImplementedError` (`none`). -/
def encoderDownFactor (ch_mult : List ℕ) : Option ℕ :=
  if ch_mult.length = 5 then some 16
  else if ch_mult.length = 4 then some 8
  else none

/-- The encoder attaches a `Downsample` block at every resolution level
except the last (line 315: `if i_level != self.num_resolutions-1`), so the
spatial downsampling applied is `2 ^ (num_resolutions - 1)`. -/
def encoderNumDownsamples (ch_mult : List ℕ) : ℕ := ch_mult.length - 1

/-- `VQModel.__init__`: the construction first builds
`Encoder(ch_mult=encoder_ch_mult)` (line 167), whose stage-count check can
already raise, then re-runs the same dispatch itself (lines 197-203). -/
def vqmodelDownFactor (encoder_ch_mult : List ℕ) : Option ℕ :=
  (encoderDownFactor encoder_ch_mult).bind fun _ =>
    if encoder_ch_mult.length = 5 then some 16
    else if encoder_ch_mult.length = 4 then some 8
    else none

/-! ### Helper lemmas about the forward pass -/

theorem zPre_length {d : ℕ} (Q : VectorQuantizer d) (zs : List (Vec d)) :
    (zPre Q zs).length = zs.length := by
  unfold zPre; split <;> simp

theorem embRead_length {d : ℕ} (Q : VectorQuantizer d) :
    (embRead Q).length = Q.embedding.length := by
  unfold embRead; split <;> simp

theorem minEncodingIndices_length {d : ℕ} (Q : VectorQuantizer d) (zs : List (Vec d)) :
    (minEncodingIndices Q zs).length = zs.length := by
  unfold minEncodingIndices dMat
  simp [zPre_length]

theorem zQGathered_length {d : ℕ} (Q : VectorQuantizer d) (zs : List (Vec d)) :
    (zQGathered Q zs).length = zs.length := by
  unfold zQGathered
  simp [minEncodingIndices_length]

theorem getD_map_of_lt {α β : Type} (f : α → β) (l : List α) (p : ℕ)
    (h : p < l.length) (d₀ : β) (d₁ : α) :
    (l.map f).getD p d₀ = f (l.getD p d₁) := by
  rw [List.getD_eq_getElem _ d₀ (by simpa using h), List.getD_eq_getElem _ d₁ h,
    List.getElem_map]

/-- Whatever branch `forward` takes, the returned `z_q` is the
straight-through value and the returned index map is the arg-min index map. -/
theorem forward_core {d : ℕ} {Q : VectorQuantizer d} {training : Bool} {used : List ℝ}
    {zs : List (Vec d)} {r : ForwardResult d}
    (hr : forward Q training used zs = some r) :
    r.z_q = zQStraightThrough Q zs ∧
    r.min_encoding_indices = minEncodingIndices Q zs := by
  unfold forward at hr
  by_cases hb : (Q.show_usage && training) = true
  · rw [if_pos hb] at hr
    cases hu : bufferUpdate used (minEncodingIndices Q zs) with
    | none => rw [hu] at hr; cases hr
    | some used' => rw [hu] at hr; cases hr; exact ⟨rfl, rfl⟩
  · rw [if_neg hb] at hr
    cases hr
    exact ⟨rfl, rfl⟩

/-- A position's assigned index is the arg-min of its distance row. -/
theorem minEncodingIndices_getD {d : ℕ} (Q : VectorQuantizer d) (zs : List (Vec d))
    (p : ℕ) (hp : p < zs.length) :
    (minEncodingIndices Q zs).getD p 0 =
      argminList ((embRead Q).map (distRow ((zPre Q zs).getD p 0))) := by
  unfold minEncodingIndices dMat
  have hp' : p < (zPre Q zs).length := by rw [zPre_length]; exact hp
  rw [getD_map_of_lt argminList _ p (by simpa using hp') 0 []]
  rw [getD_map_of_lt _ _ p hp' [] 0]

theorem minEncodingIndices_getD_lt {d : ℕ} (Q : VectorQuantizer d) (zs : List (Vec d))
    (hne : Q.embedding ≠ []) (p : ℕ) (hp : p < zs.length) :
    (minEncodingIndices Q zs).getD p 0 < (embRead Q).length := by
  rw [minEncodingIndices_getD Q zs p hp]
  have h1 : (embRead Q).map (distRow ((zPre Q zs).getD p 0)) ≠ [] := by
    have : (embRead Q).length ≠ 0 := by
      rw [embRead_length]
      simpa [List.length_eq_zero] using hne
    simpa [List.length_eq_zero] using by simpa using this
  have := argminList_lt_length _ h1
  simpa using this

theorem zipWith_add_sub_cancel {d : ℕ} :
    ∀ (xs ys : List (Vec d)), xs.length = ys.length →
      List.zipWith (fun a b => a + (b - a)) xs ys = ys := by
  intro xs
  induction xs with
  | nil => intro ys h; simp at h; simp [List.length_eq_zero.mp h.symm]
  | cons x t ih =>
    intro ys h
    cases ys with
    | nil => simp at h
    | cons y u =>
      simp only [List.zipWith_cons_cons]
      rw [show x + (y - x) = y by ring, ih u (by simpa using h)]

/-- The straight-through rewrite leaves exactly the gathered rows. -/
theorem zQStraightThrough_eq {d : ℕ} (Q : VectorQuantizer d) (zs : List (Vec d)) :
    zQStraightThrough Q zs = zQGathered Q zs := by
  unfold zQStraightThrough
  exact zipWith_add_sub_cancel _ _ (by rw [zPre_length, zQGathered_length])

theorem zQGathered_getD {d : ℕ} (Q : VectorQuantizer d) (zs : List (Vec d))
    (p : ℕ) (hp : p < zs.length) :
    (zQGathered Q zs).getD p 0 =
      (embRead Q).getD ((minEncodingIndices Q zs).getD p 0) 0 := by
  unfold zQGathered
  have hp' : p < (minEncodingIndices Q zs).length := by
    rw [minEncodingIndices_length]; exact hp
  rw [getD_map_of_lt _ _ p hp' 0 0]

/-! ### Concrete instances used by witnesses -/

/-- The all-ones vector in dimension 1. -/
noncomputable def vOne : Vec 1 := fun _ => 1

/-- The zero vector in dimension 1. -/
noncomputable def vZero : Vec 1 := fun _ => 0

/-- A tiny quantizer: one codebook row, no l2 normalization, no usage tracking. -/
noncomputable def QA : VectorQuantizer 1 := ⟨1, 0, 0, false, false, [vOne]⟩

/-- A one-position input for `QA`. -/
noncomputable def zsA : List (Vec 1) := [vZero]

/-- The result `forward QA false [] zsA` evaluates to. -/
noncomputable def rA : ForwardResult 1 :=
  ⟨zQStraightThrough QA zsA, none, none, none, 0, none, none,
    minEncodingIndices QA zsA, []⟩

theorem forward_QA_eval : forward QA false [] zsA = some rA := rfl

/-! ### Claim theorems -/

/-- Claim C1: for every input feature map (given here in its flattened
`(B*H*W, C)` form), the index `VectorQuantizer.forward` assigns to each
flattened position minimizes the squared Euclidean distance to the codebook
rows — between the raw input vector and the raw rows when `l2_norm` is off,
and between the unit-normalized input vector and the unit-normalized rows
(cosine distance) when it is on, both read through `zPre`/`embRead` — and
when several rows attain the minimum the lowest index is selected. -/
theorem C1_nearest_neighbor {d : ℕ} (Q : VectorQuantizer d) (training : Bool)
    (used : List ℝ) (zs : List (Vec d)) (r : ForwardResult d)
    (hr : forward Q training used zs = some r) (hne : Q.embedding ≠ [])
    (p : ℕ) (hp : p < zs.length) :
    r.min_encoding_indices.getD p 0 < (embRead Q).length ∧
    (∀ j < (embRead Q).length,
      sumsq ((zPre Q zs).getD p 0 -
          (embRead Q).getD (r.min_encoding_indices.getD p 0) 0) ≤
        sumsq ((zPre Q zs).getD p 0 - (embRead Q).getD j 0)) ∧
    (∀ j < r.min_encoding_indices.getD p 0,
      sumsq ((zPre Q zs).getD p 0 -
          (embRead Q).getD (r.min_encoding_indices.getD p 0) 0) <
        sumsq ((zPre Q zs).getD p 0 - (embRead Q).getD j 0)) := by
  obtain ⟨-, hidx⟩ := forward_core hr
  rw [hidx]
  set z := (zPre Q zs).getD p 0 with hz
  set ds := (embRead Q).map (distRow z) with hds
  have hgd : (minEncodingIndices Q zs).getD p 0 = argminList ds :=
    minEncodingIndices_getD Q zs p hp
  have hlt : (minEncodingIndices Q zs).getD p 0 < (embRead Q).length :=
    minEncodingIndices_getD_lt Q zs hne p hp
  have hlen : ds.length = (embRead Q).length := by rw [hds, List.length_map]
  have hrow : ∀ j < (embRead Q).length,
      ds.getD j 0 = sumsq (z - (embRead Q).getD j 0) := by
    intro j hj
    rw [hds, getD_map_of_lt (distRow z) _ j hj 0 0]
    exact (sub_sumsq_eq_distRow _ _).symm
  have hamin : argminList ds < (embRead Q).length := by rw [← hgd]; exact hlt
  refine ⟨hlt, ?_, ?_⟩
  · intro j hj
    have h1 := argminList_min ds j (by rw [hlen]; exact hj)
    rw [hrow j hj] at h1
    rw [hgd, ← hrow _ hamin]
    exact h1
  · intro j hj
    rw [hgd] at hj
    have h1 := argminList_first ds j hj
    have hjlt : j < (embRead Q).length := by omega
    rw [hrow j hjlt] at h1
    rw [hgd, ← hrow _ hamin]
    exact h1

/-- Closed witness for C1 at a concrete quantizer and input: the assigned
index is in range, and its distance is at most the distance to row 0. -/
theorem C1_nearest_neighbor_witness :
    rA.min_encoding_indices.getD 0 0 < (embRead QA).length ∧
    sumsq ((zPre QA zsA).getD 0 0 -
        (embRead QA).getD (rA.min_encoding_indices.getD 0 0) 0) ≤
      sumsq ((zPre QA zsA).getD 0 0 - (embRead QA).getD 0 0) :=
  ⟨(C1_nearest_neighbor QA false [] zsA rA rfl (by simp [QA]) 0 (by simp [zsA])).1,
   (C1_nearest_neighbor QA false [] zsA rA rfl (by simp [QA]) 0 (by simp [zsA])).2.1 0
     (by simp [embRead, QA])⟩

/-- Claim C2: the quantized map returned by `forward` is, at every position,
exactly the codebook row (normalized under `l2_norm`) selected for that
position: the straight-through rewrite `z + stopgrad(z_q - z)` returns the
gathered row, not the raw input and not an interpolation. -/
theorem C2_straight_through_value {d : ℕ} (Q : VectorQuantizer d) (training : Bool)
    (used : List ℝ) (zs : List (Vec d)) (r : ForwardResult d)
    (hr : forward Q training used zs = some r)
    (p : ℕ) (hp : p < zs.length) :
    r.z_q.getD p 0 = (embRead Q).getD (r.min_encoding_indices.getD p 0) 0 := by
  obtain ⟨hzq, hidx⟩ := forward_core hr
  rw [hzq, hidx, zQStraightThrough_eq, zQGathered_getD Q zs p hp]

/-- Closed witness for C2 at a concrete quantizer and input. -/
theorem C2_straight_through_value_witness :
    rA.z_q.getD 0 0 = (embRead QA).getD (rA.min_encoding_indices.getD 0 0) 0 :=
  C2_straight_through_value QA false [] zsA rA rfl 0 (by simp [zsA])

theorem optionMapList_eq_some_of {α β : Type} (f : α → Option β) (g : α → β) :
    ∀ l : List α, (∀ a ∈ l, f a = some (g a)) → optionMapList f l = some (l.map g) := by
  intro l
  induction l with
  | nil => intro _; rfl
  | cons a t ih =>
    intro h
    have ha : f a = some (g a) := h a (List.mem_cons_self a t)
    have ht := ih fun b hb => h b (List.mem_cons_of_mem a hb)
    simp only [optionMapList, ha, ht, List.map_cons]

theorem optionMapList_eq_none_iff {α β : Type} (f : α → Option β) :
    ∀ l : List α, (optionMapList f l = none ↔ ∃ a ∈ l, f a = none) := by
  intro l
  induction l with
  | nil => simp [optionMapList]
  | cons a t ih =>
    cases ha : f a with
    | none => simp [optionMapList, ha]
    | some b =>
      cases ht : optionMapList f t with
      | none =>
        simp only [optionMapList, ha, ht]
        constructor
        · intro _
          obtain ⟨c, hc, hfc⟩ := (ih).mp ht
          exact ⟨c, List.mem_cons_of_mem a hc, hfc⟩
        · intro _; trivial
      | some bs =>
        simp only [optionMapList, ha, ht]
        constructor
        · intro h; cases h
        · rintro ⟨c, hc, hfc⟩
          rcases List.mem_cons.mp hc with h | h
          · rw [h] at hfc; rw [hfc] at ha; cases ha
          · have := (ih).mpr ⟨c, h, hfc⟩
            rw [this] at ht; cases ht

theorem torchIndex_coe_nat {α : Type} (tbl : List α) (d₀ : α) (i : ℕ)
    (h : i < tbl.length) : torchIndex tbl (i : ℤ) = some (tbl.getD i d₀) := by
  unfold torchIndex
  rw [if_pos ⟨Int.ofNat_nonneg i, by exact_mod_cast h⟩]
  rw [Int.toNat_natCast, List.getD_eq_getElem tbl d₀ h, List.get?_eq_getElem?,
    List.getElem?_eq_getElem h]

theorem torchIndex_eq_none_iff {α : Type} (tbl : List α) (i : ℤ) :
    torchIndex tbl i = none ↔ i < -(tbl.length : ℤ) ∨ (tbl.length : ℤ) ≤ i := by
  unfold torchIndex
  by_cases h1 : 0 ≤ i ∧ i < (tbl.length : ℤ)
  · rw [if_pos h1]
    have hlt : i.toNat < tbl.length := by omega
    rw [List.get?_eq_getElem?, List.getElem?_eq_getElem hlt]
    constructor
    · intro h; cases h
    · intro h; omega
  · rw [if_neg h1]
    by_cases h2 : -(tbl.length : ℤ) ≤ i ∧ i < 0
    · rw [if_pos h2]
      have hlt : ((tbl.length : ℤ) + i).toNat < tbl.length := by omega
      rw [List.get?_eq_getElem?, List.getElem?_eq_getElem hlt]
      constructor
      · intro h; cases h
      · intro h; omega
    · rw [if_neg h2]
      constructor
      · intro _; omega
      · intro _; rfl

theorem optionMapList_some_mem {α β : Type} (f : α → Option β) :
    ∀ (l : List α) (bs : List β), optionMapList f l = some bs →
      ∀ b ∈ bs, ∃ a ∈ l, f a = some b := by
  intro l
  induction l with
  | nil =>
    intro bs h b hb
    cases h
    simp at hb
  | cons a t ih =>
    intro bs h b hb
    cases hfa : f a with
    | none =>
      simp only [optionMapList, hfa] at h
      cases h
    | some b' =>
      cases hrest : optionMapList f t with
      | none =>
        simp only [optionMapList, hfa, hrest] at h
        cases h
      | some bs' =>
        simp only [optionMapList, hfa, hrest] at h
        cases h
        rcases List.mem_cons.mp hb with h | h
        · exact ⟨a, List.mem_cons_self a t, h ▸ hfa⟩
        · obtain ⟨c, hc, hfc⟩ := ih bs' hrest b h
          exact ⟨c, List.mem_cons_of_mem a hc, hfc⟩

theorem torchIndex_mem {α : Type} (tbl : List α) (i : ℤ) (b : α)
    (h : torchIndex tbl i = some b) : b ∈ tbl := by
  unfold torchIndex at h
  by_cases h1 : 0 ≤ i ∧ i < (tbl.length : ℤ)
  · rw [if_pos h1] at h
    exact List.get?_mem h
  · rw [if_neg h1] at h
    by_cases hc2 : -(tbl.length : ℤ) ≤ i ∧ i < 0
    · rw [if_pos hc2] at h
      exact List.get?_mem h
    · rw [if_neg hc2] at h
      cases h

/-- Claim C3: calling `get_codebook_entry` with the index map produced by
`forward` reproduces exactly the quantized map `z_q` that `forward`
returned, for either setting of `l2_norm` (both sides are stated in the
flattened layout; the `(B,C,H,W)`/`channel_first=True` reshape on each side
is the same layout bijection). -/
theorem C3_lookup_roundtrip {d : ℕ} (Q : VectorQuantizer d) (training : Bool)
    (used : List ℝ) (zs : List (Vec d)) (r : ForwardResult d)
    (hr : forward Q training used zs = some r) (hne : Q.embedding ≠ []) :
    get_codebook_entry Q (r.min_encoding_indices.map Int.ofNat) =
      some r.z_q := by
  obtain ⟨hzq, hidx⟩ := forward_core hr
  rw [hzq, hidx, zQStraightThrough_eq]
  unfold get_codebook_entry zQGathered
  have hmem : ∀ i ∈ minEncodingIndices Q zs, i < (embRead Q).length := by
    intro i hi
    unfold minEncodingIndices at hi
    obtain ⟨row, hrow, hargi⟩ := List.mem_map.mp hi
    unfold dMat at hrow
    obtain ⟨z, _, hrowz⟩ := List.mem_map.mp hrow
    have hne' : row ≠ [] := by
      rw [← hrowz]
      intro hnil
      have : (embRead Q).length = 0 := by
        have := congrArg List.length hnil
        simpa using this
      rw [embRead_length] at this
      exact hne (List.length_eq_zero.mp this)
    have := argminList_lt_length row hne'
    rw [hargi] at this
    calc i < row.length := this
    _ = (embRead Q).length := by rw [← hrowz]; simp
  have hall : ∀ a ∈ (minEncodingIndices Q zs).map Int.ofNat,
      torchIndex (embRead Q) a = some ((embRead Q).getD a.toNat 0) := by
    intro a ha
    obtain ⟨i, hi, rfl⟩ := List.mem_map.mp ha
    exact torchIndex_coe_nat (embRead Q) 0 i (hmem i hi)
  rw [optionMapList_eq_some_of (torchIndex (embRead Q))
    (fun a : ℤ => (embRead Q).getD a.toNat 0) _ hall]
  rw [List.map_map]
  rfl

/-- Closed witness for C3 at a concrete quantizer and input. -/
theorem C3_lookup_roundtrip_witness :
    get_codebook_entry QA (rA.min_encoding_indices.map Int.ofNat) = some rA.z_q :=
  C3_lookup_roundtrip QA false [] zsA rA rfl (by simp [QA])

/-- A second codebook row, for the wraparound counterexample. -/
noncomputable def rowA : Vec 1 := fun _ => 5

/-- A second codebook row, distinguishable from `rowA`. -/
noncomputable def rowB : Vec 1 := fun _ => 7

/-- A two-row quantizer without l2 normalization. -/
noncomputable def Qwrap : VectorQuantizer 1 := ⟨2, 0, 0, false, false, [rowA, rowB]⟩

/-- Counterexample to claim C4 as stated: the index `-1` lies outside
`[0, size)`, yet `get_codebook_entry` does not fail — PyTorch advanced
indexing wraps negative indices, so it returns the last codebook row. -/
theorem C4_out_of_range_counterexample :
    (-1 : ℤ) < 0 ∧ get_codebook_entry Qwrap [(-1 : ℤ)] = some [rowB] :=
  ⟨by norm_num, rfl⟩

/-- Claim C4 (amended): codebook lookup fails with an out-of-range error
exactly when some index falls outside `[-size, size)`; a negative index `i`
in `[-size, 0)` does not fail but follows Python wraparound and gathers row
`size + i`. -/
theorem C4_amended_lookup_range {d : ℕ} (Q : VectorQuantizer d) (indices : List ℤ) :
    (get_codebook_entry Q indices = none ↔
      ∃ i ∈ indices,
        i < -(Q.embedding.length : ℤ) ∨ (Q.embedding.length : ℤ) ≤ i) ∧
    (∀ i : ℤ, -(Q.embedding.length : ℤ) ≤ i → i < 0 →
      torchIndex (embRead Q) i =
        some ((embRead Q).getD ((Q.embedding.length : ℤ) + i).toNat 0)) := by
  constructor
  · unfold get_codebook_entry
    rw [optionMapList_eq_none_iff]
    constructor
    · rintro ⟨a, ha, hfa⟩
      refine ⟨a, ha, ?_⟩
      have := (torchIndex_eq_none_iff (embRead Q) a).mp hfa
      rwa [embRead_length] at this
    · rintro ⟨a, ha, hcond⟩
      refine ⟨a, ha, ?_⟩
      apply (torchIndex_eq_none_iff (embRead Q) a).mpr
      rwa [embRead_length]
  · intro i h1 h2
    have hn := embRead_length Q
    unfold torchIndex
    rw [if_neg (by omega), if_pos (by constructor <;> omega)]
    have hlt : (((embRead Q).length : ℤ) + i).toNat < (embRead Q).length := by omega
    rw [List.get?_eq_getElem?, List.getElem?_eq_getElem hlt,
      List.getD_eq_getElem (embRead Q) 0 (by omega : ((Q.embedding.length : ℤ) + i).toNat < (embRead Q).length)]
    congr 2
    omega

/-- Closed witness for the amended C4: the truly out-of-range index `5`
(codebook size `2`) makes the lookup fail, and the in-range negative index
`-1` gathers the wrapped row. -/
theorem C4_amended_lookup_range_witness :
    get_codebook_entry Qwrap [(5 : ℤ)] = none ∧
    torchIndex (embRead Qwrap) (-1) =
      some ((embRead Qwrap).getD ((Qwrap.embedding.length : ℤ) + (-1)).toNat 0) :=
  ⟨((C4_amended_lookup_range Qwrap [(5 : ℤ)]).1).mpr
      ⟨5, by simp, Or.inr (by simp [Qwrap])⟩,
   (C4_amended_lookup_range Qwrap [(5 : ℤ)]).2 (-1) (by simp [Qwrap]) (by norm_num)⟩

/-- Claim C6: in evaluation mode `forward` reports the embedding, commitment
and entropy losses as absent (`none`) and `codebook_usage` as `0`, leaves
the `codebook_used` buffer unchanged, and still returns the same quantized
map and index map as a training-mode call on the same input and state. -/
theorem C6_eval_mode {d : ℕ} (Q : VectorQuantizer d) (used : List ℝ)
    (zs : List (Vec d)) :
    ∃ re : ForwardResult d, forward Q false used zs = some re ∧
      re.vq_loss = none ∧ re.commit_loss = none ∧ re.entropy_loss = none ∧
      re.codebook_usage = 0 ∧ re.codebook_used = used ∧
      ∀ rt : ForwardResult d, forward Q true used zs = some rt →
        re.z_q = rt.z_q ∧ re.min_encoding_indices = rt.min_encoding_indices := by
  refine ⟨⟨zQStraightThrough Q zs, none, none, none, 0, none, none,
    minEncodingIndices Q zs, used⟩, ?_, rfl, rfl, rfl, rfl, rfl, ?_⟩
  · unfold forward
    simp
  · intro rt hrt
    obtain ⟨h1, h2⟩ := forward_core hrt
    exact ⟨h1.symm, h2.symm⟩

/-- Closed witness for C6 at a concrete quantizer and input. -/
theorem C6_eval_mode_witness :
    rA.vq_loss = none ∧ rA.codebook_used = ([] : List ℝ) := by
  obtain ⟨re, hre, h1, -, -, -, h5, -⟩ := C6_eval_mode QA [] zsA
  have heq : re = rA := by
    rw [forward_QA_eval] at hre
    exact (Option.some.inj hre).symm
  rw [← heq]
  exact ⟨h1, h5⟩

/-- Claim C9: constructing the model with an encoder channel-multiplier
schedule whose stage count is neither 4 nor 5 fails at construction time
(`none`, the `NotImplementedError` of both `Encoder.__init__` and
`VQModel.__init__`); 5 stages yield downsampling factor 16 and 4 stages
yield 8, each equal to `2 ^ (number of Downsample blocks)`. -/
theorem C9_stage_count (l : List ℕ) :
    (l.length ≠ 4 → l.length ≠ 5 → vqmodelDownFactor l = none) ∧
    (l.length = 5 →
      vqmodelDownFactor l = some 16 ∧ 16 = 2 ^ encoderNumDownsamples l) ∧
    (l.length = 4 →
      vqmodelDownFactor l = some 8 ∧ 8 = 2 ^ encoderNumDownsamples l) := by
  refine ⟨?_, ?_, ?_⟩
  · intro h4 h5
    simp [vqmodelDownFactor, encoderDownFactor, h4, h5]
  · intro h5
    simp [vqmodelDownFactor, encoderDownFactor, encoderNumDownsamples, h5]
  · intro h4
    simp [vqmodelDownFactor, encoderDownFactor, encoderNumDownsamples, h4]

/-- Closed witness for C9 at the `VQ-16` preset schedule `[1, 1, 2, 2, 4]`. -/
theorem C9_stage_count_witness :
    vqmodelDownFactor [1, 1, 2, 2, 4] = some 16 ∧
    16 = 2 ^ encoderNumDownsamples [1, 1, 2, 2, 4] :=
  (C9_stage_count [1, 1, 2, 2, 4]).2.1 rfl

/-! ### Norm lemmas -/

theorem sumsq_nonneg {d : ℕ} (v : Vec d) : 0 ≤ sumsq v :=
  Finset.sum_nonneg fun i _ => sq_nonneg (v i)

theorem l2norm_sq {d : ℕ} (v : Vec d) : l2norm v ^ 2 = sumsq v :=
  Real.sq_sqrt (sumsq_nonneg v)

theorem normEps_pos : 0 < normEps := by norm_num [normEps]

theorem sumsq_normalize {d : ℕ} (v : Vec d) :
    sumsq (normalize v) = sumsq v / max (l2norm v) normEps ^ 2 := by
  unfold sumsq normalize
  rw [Finset.sum_div]
  exact Finset.sum_congr rfl fun i _ => (div_pow (v i) _ 2)

theorem max_norm_pos {d : ℕ} (v : Vec d) : 0 < max (l2norm v) normEps :=
  lt_of_lt_of_le normEps_pos (le_max_right _ _)

theorem sumsq_normalize_le_one {d : ℕ} (v : Vec d) : sumsq (normalize v) ≤ 1 := by
  rw [sumsq_normalize, div_le_one (pow_pos (max_norm_pos v) 2), ← l2norm_sq]
  exact pow_le_pow_left (Real.sqrt_nonneg _) (le_max_left _ _) 2

theorem sumsq_normalize_eq_one {d : ℕ} (v : Vec d) (h : normEps ≤ l2norm v) :
    sumsq (normalize v) = 1 := by
  rw [sumsq_normalize, max_eq_left h, l2norm_sq]
  have hpos : 0 < sumsq v := by
    have h1 : 0 < l2norm v := lt_of_lt_of_le normEps_pos h
    exact (Real.sqrt_pos.mp h1)
  exact div_self (ne_of_gt hpos)

theorem l2norm_normalize_eq_one {d : ℕ} (v : Vec d) (h : normEps ≤ l2norm v) :
    l2norm (normalize v) = 1 := by
  unfold l2norm
  rw [sumsq_normalize_eq_one v h, Real.sqrt_one]

theorem dot_sq_le_sumsq_mul_sumsq {d : ℕ} (a b : Vec d) :
    dot a b ^ 2 ≤ sumsq a * sumsq b :=
  Finset.sum_mul_sq_le_sq_mul_sq Finset.univ a b

theorem meanL_nonneg (l : List ℝ) (h : ∀ x ∈ l, 0 ≤ x) : 0 ≤ meanL l :=
  div_nonneg (List.sum_nonneg h) (Nat.cast_nonneg _)

theorem meanL_le_one (l : List ℝ) (h : ∀ x ∈ l, x ≤ 1) : meanL l ≤ 1 := by
  unfold meanL
  rcases eq_or_ne l.length 0 with h0 | h0
  · rw [List.length_eq_zero.mp h0]
    norm_num
  · have hsum : l.sum ≤ (l.length : ℝ) := by
      have := List.sum_le_card_nsmul l 1 h
      simpa using this
    have hpos : (0 : ℝ) < l.length := by
      exact_mod_cast Nat.pos_of_ne_zero h0
    rw [div_le_one hpos]
    exact hsum

theorem mem_zipWith_imp {α β γ : Type} (f : α → β → γ) :
    ∀ (xs : List α) (ys : List β), ∀ c ∈ List.zipWith f xs ys,
      ∃ a ∈ xs, ∃ b ∈ ys, c = f a b := by
  intro xs
  induction xs with
  | nil => intro ys c hc; simp at hc
  | cons x t ih =>
    intro ys c hc
    cases ys with
    | nil => simp at hc
    | cons y u =>
      rw [List.zipWith_cons_cons] at hc
      rcases List.mem_cons.mp hc with h | h
      · exact ⟨x, List.mem_cons_self x t, y, List.mem_cons_self y u, h⟩
      · obtain ⟨a, ha, b, hb, hab⟩ := ih u c h
        exact ⟨a, List.mem_cons_of_mem x ha, b, List.mem_cons_of_mem y hb, hab⟩

/-- Claim C8: `compute_disentangle_loss` unit-normalizes both streams per
position, averages the squared per-position dot products and multiplies by
`disentanglement_ratio`; for a nonnegative ratio and equal-shape streams the
result always lies in `[0, ratio]` (squared cosine similarity is in `[0,1]`). -/
theorem C8_disentangle_bounds {d : ℕ} (dratio : ℝ) (hdr : 0 ≤ dratio)
    (qv qs : List (Vec d)) (hlen : qv.length = qs.length) :
    0 ≤ computeDisentangleLoss dratio qv qs ∧
    computeDisentangleLoss dratio qv qs ≤ dratio := by
  unfold computeDisentangleLoss
  have hbounds : ∀ x ∈ List.zipWith (fun a b => dot a b ^ 2)
      (qv.map normalize) (qs.map normalize), 0 ≤ x ∧ x ≤ 1 := by
    intro x hx
    obtain ⟨a, ha, b, hb, rfl⟩ := mem_zipWith_imp _ _ _ x hx
    obtain ⟨a0, -, rfl⟩ := List.mem_map.mp ha
    obtain ⟨b0, -, rfl⟩ := List.mem_map.mp hb
    refine ⟨sq_nonneg _, ?_⟩
    calc dot (normalize a0) (normalize b0) ^ 2
        ≤ sumsq (normalize a0) * sumsq (normalize b0) :=
          dot_sq_le_sumsq_mul_sumsq _ _
    _ ≤ 1 := mul_le_one (sumsq_normalize_le_one a0) (sumsq_nonneg _)
          (sumsq_normalize_le_one b0)
  have hm0 : 0 ≤ meanL (List.zipWith (fun a b => dot a b ^ 2)
      (qv.map normalize) (qs.map normalize)) :=
    meanL_nonneg _ fun x hx => (hbounds x hx).1
  have hm1 : meanL (List.zipWith (fun a b => dot a b ^ 2)
      (qv.map normalize) (qs.map normalize)) ≤ 1 :=
    meanL_le_one _ fun x hx => (hbounds x hx).2
  constructor
  · exact mul_nonneg hm0 hdr
  · calc meanL _ * dratio ≤ 1 * dratio := mul_le_mul_of_nonneg_right hm1 hdr
    _ = dratio := one_mul dratio

/-- Closed witness for C8 at concrete streams and ratio. -/
theorem C8_disentangle_bounds_witness :
    0 ≤ computeDisentangleLoss 1 [vOne] [vOne] ∧
    computeDisentangleLoss 1 [vOne] [vOne] ≤ 1 :=
  C8_disentangle_bounds 1 (by norm_num) [vOne] [vOne] rfl

/-- A quantizer with `l2_norm` on whose stored codebook holds the zero row. -/
noncomputable def Qzero : VectorQuantizer 1 := ⟨1, 0, 0, true, false, [vZero]⟩

/-- Counterexample to claim C7 as stated: with `l2_norm` enabled, the
all-zero stored row is read back (through `F.normalize`'s `eps` clamp) as
the zero vector, whose L2 norm is `0`, not `1`. -/
theorem C7_unit_norm_counterexample :
    Qzero.l2_norm = true ∧ l2norm ((embRead Qzero).getD 0 0) ≠ 1 := by
  refine ⟨rfl, ?_⟩
  have h1 : (embRead Qzero).getD 0 0 = normalize vZero := by
    simp [embRead, Qzero]
  have h2 : normalize vZero = vZero := by
    funext i
    simp [normalize, vZero]
  have h3 : l2norm vZero = 0 := by
    simp [l2norm, sumsq, vZero]
  rw [h1, h2, h3]
  norm_num

/-- Claim C7 (amended): when `l2_norm` is enabled and every stored row has
L2 norm at least `F.normalize`'s epsilon (`1e-12`) — which rules out only
degenerate rows such as the zero row of the counterexample — every codebook
row as read by `forward` and by `get_codebook_entry` has L2 norm exactly 1,
every vector of the quantized map returned by `forward` has L2 norm 1, and
normalization happens at read time (the read table is the row-normalized
image of the untouched stored table). -/
theorem C7_unit_norm_amended {d : ℕ} (Q : VectorQuantizer d)
    (h2 : Q.l2_norm = true)
    (hrows : ∀ v ∈ Q.embedding, normEps ≤ l2norm v) :
    (∀ w ∈ embRead Q, l2norm w = 1) ∧
    (∀ (indices : List ℤ) (zq : List (Vec d)),
      get_codebook_entry Q indices = some zq → ∀ w ∈ zq, l2norm w = 1) ∧
    (∀ (training : Bool) (used : List ℝ) (zs : List (Vec d))
        (r : ForwardResult d), forward Q training used zs = some r →
      Q.embedding ≠ [] → ∀ p < zs.length, l2norm (r.z_q.getD p 0) = 1) ∧
    embRead Q = Q.embedding.map normalize := by
  have hread : embRead Q = Q.embedding.map normalize := by
    simp [embRead, h2]
  have hunit : ∀ w ∈ embRead Q, l2norm w = 1 := by
    intro w hw
    rw [hread] at hw
    obtain ⟨v, hv, rfl⟩ := List.mem_map.mp hw
    exact l2norm_normalize_eq_one v (hrows v hv)
  refine ⟨hunit, ?_, ?_, hread⟩
  · intro indices zq hzq w hw
    apply hunit
    obtain ⟨i, -, hfi⟩ := optionMapList_some_mem (torchIndex (embRead Q)) indices zq hzq w hw
    exact torchIndex_mem (embRead Q) i w hfi
  · intro training used zs r hr hne p hp
    obtain ⟨hzq, -⟩ := forward_core hr
    rw [hzq, zQStraightThrough_eq, zQGathered_getD Q zs p hp]
    apply hunit
    have hlt := minEncodingIndices_getD_lt Q zs hne p hp
    rw [List.getD_eq_getElem _ _ hlt]
    exact List.getElem_mem hlt

/-- A quantizer with `l2_norm` on and a single unit-norm stored row. -/
noncomputable def QB : VectorQuantizer 1 := ⟨1, 0, 0, true, false, [vOne]⟩

/-- Closed witness for the amended C7 at a concrete quantizer: the read
table is the normalized image of the stored table, and the read row has
unit norm. -/
theorem C7_unit_norm_amended_witness :
    embRead QB = QB.embedding.map normalize ∧
    l2norm ((embRead QB).getD 0 0) = 1 := by
  have hrows : ∀ v ∈ QB.embedding, normEps ≤ l2norm v := by
    intro v hv
    simp only [QB, List.mem_singleton] at hv
    rw [hv]
    have h1 : l2norm vOne = 1 := by
      simp [l2norm, sumsq, vOne]
    rw [h1]
    norm_num [normEps]
  have h := C7_unit_norm_amended QB rfl hrows
  refine ⟨h.2.2.2, ?_⟩
  apply h.1
  have hlen : 0 < (embRead QB).length := by
    rw [embRead_length]
    simp [QB]
  rw [List.getD_eq_getElem _ _ hlen]
  exact List.getElem_mem hlen

/-! ### Usage buffer lemmas -/

theorem bufferUpdate_isSome_iff (used : List ℝ) (idx : List ℕ)
    (h : used.length = 65536) :
    (bufferUpdate used idx).isSome ↔ 1 ≤ idx.length ∧ idx.length ≤ 65536 := by
  unfold bufferUpdate
  by_cases hc : (idx.length = 0 ∧ used.length ≠ 0) ∨ used.length < idx.length
  · rw [if_pos hc]
    simp only [Option.isSome_none, Bool.false_eq_true, false_iff]
    omega
  · rw [if_neg hc]
    simp only [Option.isSome_some, true_iff]
    omega

/-- Claim C10: in training mode with `show_usage` enabled and the buffer at
its initial capacity 65536, `forward` succeeds exactly when the flattened
position count is between 1 and 65536; in particular a batch with more than
65536 positions makes the usage update raise a size-mismatch error (no
truncation, no result). -/
theorem C10_buffer_capacity {d : ℕ} (Q : VectorQuantizer d) (used : List ℝ)
    (zs : List (Vec d)) (hshow : Q.show_usage = true)
    (hlen : used.length = 65536) :
    (forward Q true used zs).isSome ↔ 1 ≤ zs.length ∧ zs.length ≤ 65536 := by
  have hbu := bufferUpdate_isSome_iff used (minEncodingIndices Q zs) hlen
  rw [minEncodingIndices_length] at hbu
  unfold forward
  have hcond : (Q.show_usage && true) = true := by rw [hshow]; rfl
  rw [if_pos hcond]
  cases hu : bufferUpdate used (minEncodingIndices Q zs) with
  | none =>
    rw [hu] at hbu
    simpa using hbu
  | some u =>
    rw [hu] at hbu
    simpa using hbu

/-- A quantizer with usage tracking on. -/
noncomputable def QC : VectorQuantizer 1 := ⟨1, 0, 0, false, true, [vOne]⟩

/-- A buffer at the initial capacity, all zeros (`torch.zeros(65536)`). -/
noncomputable def bigBuf : List ℝ := List.replicate 65536 0

/-- Closed witness for C10 at a concrete quantizer, buffer, and input. -/
theorem C10_buffer_capacity_witness : (forward QC true bigBuf [vZero]).isSome :=
  (C10_buffer_capacity QC bigBuf [vZero] rfl
    (by rw [bigBuf, List.length_replicate])).mpr (by simp)

theorem bufferUpdate_some_of (used : List ℝ) (idx : List ℕ)
    (h1 : 1 ≤ idx.length) (h2 : idx.length ≤ used.length) :
    bufferUpdate used idx =
      some (used.drop idx.length ++ idx.map (Nat.cast : ℕ → ℝ)) := by
  unfold bufferUpdate
  rw [if_neg (by omega)]

/-- In training mode with usage tracking on and a large-enough buffer, the
buffer after `forward` is the shifted-and-appended one. -/
theorem forward_train_used {d : ℕ} (Q : VectorQuantizer d) (u : List ℝ)
    (zs : List (Vec d)) (hshow : Q.show_usage = true)
    (h1 : 1 ≤ zs.length) (h2 : zs.length ≤ u.length) :
    (forward Q true u zs).map ForwardResult.codebook_used =
      some (u.drop zs.length ++ (minEncodingIndices Q zs).map (Nat.cast : ℕ → ℝ)) := by
  have hb : bufferUpdate u (minEncodingIndices Q zs) =
      some (u.drop zs.length ++ (minEncodingIndices Q zs).map (Nat.cast : ℕ → ℝ)) := by
    have hl := minEncodingIndices_length Q zs
    rw [bufferUpdate_some_of u _ (by omega) (by omega), hl]
  unfold forward
  have hcond : (Q.show_usage && true) = true := by rw [hshow]; rfl
  rw [if_pos hcond, hb]
  rfl

/-- The buffer invariant carried across training steps: full capacity, and
every stored float is (the cast of) an index below the codebook size. -/
def GoodBuf {d : ℕ} (Q : VectorQuantizer d) (u : List ℝ) : Prop :=
  u.length = 65536 ∧ ∀ x ∈ u, ∃ m : ℕ, m < Q.n_e ∧ x = (m : ℝ)

/-- Every assigned index is below the number of codebook rows. -/
theorem minEncodingIndices_mem_lt {d : ℕ} (Q : VectorQuantizer d) (zs : List (Vec d))
    (hne : Q.embedding ≠ []) : ∀ i ∈ minEncodingIndices Q zs, i < Q.embedding.length := by
  intro i hi
  unfold minEncodingIndices at hi
  obtain ⟨row, hrow, hargi⟩ := List.mem_map.mp hi
  unfold dMat at hrow
  obtain ⟨z, -, hrowz⟩ := List.mem_map.mp hrow
  have hne' : row ≠ [] := by
    rw [← hrowz]
    intro hnil
    have hz : (embRead Q).length = 0 := by
      have := congrArg List.length hnil
      simpa using this
    rw [embRead_length] at hz
    exact hne (List.length_eq_zero.mp hz)
  have halt := argminList_lt_length row hne'
  rw [hargi] at halt
  calc i < row.length := halt
  _ = (embRead Q).length := by rw [← hrowz]; simp
  _ = Q.embedding.length := embRead_length Q

theorem goodBuf_step {d : ℕ} (Q : VectorQuantizer d) (u : List ℝ) (zs : List (Vec d))
    (hne : Q.embedding ≠ []) (hsz : Q.embedding.length = Q.n_e)
    (hg : GoodBuf Q u) (h1 : 1 ≤ zs.length) (h2 : zs.length ≤ 65536) :
    GoodBuf Q (u.drop zs.length ++ (minEncodingIndices Q zs).map (Nat.cast : ℕ → ℝ)) := by
  obtain ⟨hlen, hvals⟩ := hg
  constructor
  · rw [List.length_append, List.length_drop, List.length_map,
      minEncodingIndices_length, hlen]
    omega
  · intro x hx
    rcases List.mem_append.mp hx with h | h
    · exact hvals x (List.drop_subset _ _ h)
    · obtain ⟨i, hi, rfl⟩ := List.mem_map.mp h
      refine ⟨i, ?_, rfl⟩
      rw [← hsz]
      exact minEncodingIndices_mem_lt Q zs hne i hi

theorem codebookUsage_bounds {d : ℕ} (Q : VectorQuantizer d) (u : List ℝ)
    (hn : 0 < Q.n_e) (hvals : ∀ x ∈ u, ∃ m : ℕ, m < Q.n_e ∧ x = (m : ℝ)) :
    0 ≤ codebookUsageOf Q.n_e u ∧ codebookUsageOf Q.n_e u ≤ 1 := by
  unfold codebookUsageOf
  constructor
  · positivity
  · rw [div_le_one (by exact_mod_cast hn)]
    have hcard : u.dedup.length ≤ Q.n_e := by
      have h1 := List.card_toFinset u
      have hsub : u.toFinset ⊆ (Finset.range Q.n_e).image (fun m : ℕ => (m : ℝ)) := by
        intro x hx
        obtain ⟨m, hm, rfl⟩ := hvals x (List.mem_toFinset.mp hx)
        exact Finset.mem_image.mpr ⟨m, Finset.mem_range.mpr hm, rfl⟩
      calc u.dedup.length = u.toFinset.card := h1.symm
      _ ≤ ((Finset.range Q.n_e).image (fun m : ℕ => (m : ℝ))).card :=
          Finset.card_le_card hsub
      _ ≤ (Finset.range Q.n_e).card := Finset.card_image_le
      _ = Q.n_e := Finset.card_range _
    exact_mod_cast hcard

/-- The `codebook_used` buffer threaded through a sequence of training-mode
forward calls, one batch after the other (`none` once any call raises). -/
noncomputable def runUsed {d : ℕ} (Q : VectorQuantizer d) (used0 : List ℝ)
    (batches : List (List (Vec d))) : Option (List ℝ) :=
  batches.foldl (fun acc zs => acc.bind fun u =>
    (forward Q true u zs).map ForwardResult.codebook_used) (some used0)

theorem runUsed_cons {d : ℕ} (Q : VectorQuantizer d) (u0 u1 : List ℝ)
    (b : List (Vec d)) (bs : List (List (Vec d)))
    (h : (forward Q true u0 b).map ForwardResult.codebook_used = some u1) :
    runUsed Q u0 (b :: bs) = runUsed Q u1 bs := by
  unfold runUsed
  rw [List.foldl_cons]
  have hstep : ((some u0).bind fun u =>
      (forward Q true u b).map ForwardResult.codebook_used) = some u1 := h
  rw [hstep]

theorem runUsed_goodBuf {d : ℕ} (Q : VectorQuantizer d)
    (hshow : Q.show_usage = true) (hne : Q.embedding ≠ [])
    (hsz : Q.embedding.length = Q.n_e) :
    ∀ (batches : List (List (Vec d))) (used0 : List ℝ), GoodBuf Q used0 →
      (∀ b ∈ batches, 1 ≤ b.length ∧ b.length ≤ 65536) →
      ∃ u, runUsed Q used0 batches = some u ∧ GoodBuf Q u := by
  intro batches
  induction batches with
  | nil =>
    intro u0 hg _
    exact ⟨u0, rfl, hg⟩
  | cons b bs ih =>
    intro u0 hg hb
    have hb1 := hb b (List.mem_cons_self b bs)
    have hstep := forward_train_used Q u0 b hshow hb1.1 (by rw [hg.1]; exact hb1.2)
    have hg1 := goodBuf_step Q u0 b hne hsz hg hb1.1 hb1.2
    obtain ⟨u, hu, hgu⟩ := ih _ hg1 fun c hc => hb c (List.mem_cons_of_mem b hc)
    exact ⟨u, by rw [runUsed_cons Q u0 _ b bs hstep]; exact hu, hgu⟩

/-- Claim C5: across any sequence of training-mode forward calls with
`show_usage` enabled (each batch's position count between 1 and the 65536
capacity), the `codebook_used` buffer keeps length exactly 65536 after every
update — each update drops the oldest entries and appends the new indices at
the tail, which is what `runUsed` folds — and the reported `codebook_usage`
(distinct buffer values over the codebook size) always lies in `[0, 1]`. -/
theorem C5_usage_buffer_invariant {d : ℕ} (Q : VectorQuantizer d) (used0 : List ℝ)
    (batches : List (List (Vec d))) (hshow : Q.show_usage = true)
    (hne : Q.embedding ≠ []) (hsz : Q.embedding.length = Q.n_e)
    (hg0 : GoodBuf Q used0)
    (hbatch : ∀ b ∈ batches, 1 ≤ b.length ∧ b.length ≤ 65536) :
    ∀ k : ℕ, ∃ u : List ℝ, runUsed Q used0 (batches.take k) = some u ∧
      u.length = 65536 ∧
      0 ≤ codebookUsageOf Q.n_e u ∧ codebookUsageOf Q.n_e u ≤ 1 := by
  intro k
  obtain ⟨u, hu, hgu⟩ := runUsed_goodBuf Q hshow hne hsz (batches.take k) used0 hg0
    fun c hc => hbatch c (List.take_subset k batches hc)
  have hn : 0 < Q.n_e := by
    rw [← hsz]
    exact List.length_pos.mpr hne
  obtain ⟨hb0, hb1⟩ := codebookUsage_bounds Q u hn hgu.2
  exact ⟨u, hu, hgu.1, hb0, hb1⟩

/-- Closed witness for C5 at a concrete quantizer, initial buffer and batch. -/
theorem C5_usage_buffer_invariant_witness :
    (runUsed QC bigBuf ([[vZero]].take 1)).isSome := by
  have hg0 : GoodBuf QC bigBuf := by
    constructor
    · rw [bigBuf, List.length_replicate]
    · intro x hx
      rw [bigBuf] at hx
      have hx0 := List.eq_of_mem_replicate hx
      refine ⟨0, by norm_num [QC], by rw [hx0]; norm_num⟩
  obtain ⟨u, hu, -⟩ := C5_usage_buffer_invariant QC bigBuf [[vZero]] rfl
    (by simp [QC]) rfl hg0
    (by
      intro b hb
      simp only [List.mem_singleton] at hb
      rw [hb]
      exact ⟨by simp, by simp⟩)
    1
  rw [hu]
  rfl

end FQGAN
